import Mathlib

/-!
Verification development for the git-statistics commit-aggregation core.

The definitions below are a shallow embedding of the Python sources:
  * `src/utils.py` — `map_alias_to_name` (alias resolution),
  * `src/git_analyzer.py` — `collect_changes_by_group` (per-branch commit
    aggregation with date-window and author-exclusion filters),
  * `src/report_generator.py` — `calculate_balance_indicators`,
  * `src/config.py` / `src/main.py` — date validation and the run entry point.

Strings are modelled as lists of characters with ASCII lower-casing and
ASCII-whitespace stripping (the documented baseline behaviour of the tool).
Python dicts are modelled as insertion-ordered association lists, Python
`Counter`s as association lists with a zero default, datetimes as natural
numbers counting seconds, and calendar days as natural numbers.
-/

abbrev Str := List Char

/-- ASCII lower-casing of one character, the baseline behaviour of Python
`str.lower` used by the tool on author names. -/
def lowerChar (c : Char) : Char :=
  if 65 ≤ c.toNat ∧ c.toNat ≤ 90 then Char.ofNat (c.toNat + 32) else c

/-- ASCII whitespace test, the baseline behaviour of Python `str.strip`
(space, tab, newline, carriage return, vertical tab, form feed). -/
def isSpace (c : Char) : Bool :=
  decide (c.toNat = 32 ∨ c.toNat = 9 ∨ c.toNat = 10 ∨ c.toNat = 13 ∨
          c.toNat = 11 ∨ c.toNat = 12)

/-- Model of Python `str.lower` (ASCII baseline). -/
def lowerStr (s : Str) : Str := s.map lowerChar

/-- Model of Python `str.strip`: drop leading and trailing whitespace. -/
def stripStr (s : Str) : Str :=
  ((s.dropWhile isSpace).reverse.dropWhile isSpace).reverse

/-- The normalization `author_name.strip().lower()` performed by the code. -/
def normalizeName (s : Str) : Str := lowerStr (stripStr s)

theorem toNat_lowerChar (c : Char) :
    (lowerChar c).toNat =
      if 65 ≤ c.toNat ∧ c.toNat ≤ 90 then c.toNat + 32 else c.toNat := by
  unfold lowerChar
  by_cases h : 65 ≤ c.toNat ∧ c.toNat ≤ 90
  · rw [if_pos h, if_pos h]
    obtain ⟨h1, h2⟩ := h
    generalize hn : c.toNat = n at h1 h2
    interval_cases n <;> decide
  · rw [if_neg h, if_neg h]

theorem lowerChar_eq_self (c : Char) (h : ¬(65 ≤ c.toNat ∧ c.toNat ≤ 90)) :
    lowerChar c = c := by
  unfold lowerChar
  rw [if_neg h]

theorem lowerChar_idem (c : Char) : lowerChar (lowerChar c) = lowerChar c := by
  by_cases h : 65 ≤ c.toNat ∧ c.toNat ≤ 90
  · refine lowerChar_eq_self _ ?_
    rw [toNat_lowerChar, if_pos h]
    omega
  · rw [lowerChar_eq_self c h]
    exact lowerChar_eq_self c h

theorem isSpace_lowerChar (c : Char) : isSpace (lowerChar c) = isSpace c := by
  unfold isSpace
  rw [decide_eq_decide, toNat_lowerChar]
  by_cases h : 65 ≤ c.toNat ∧ c.toNat ≤ 90
  · rw [if_pos h]; omega
  · rw [if_neg h]

theorem lowerStr_idem (s : Str) : lowerStr (lowerStr s) = lowerStr s := by
  unfold lowerStr
  rw [List.map_map]
  exact List.map_congr_left fun c _ => lowerChar_idem c

theorem length_lowerStr (s : Str) : (lowerStr s).length = s.length :=
  List.length_map s lowerChar

theorem dropWhile_head_false (p : Char → Bool) (l : List Char) :
    ∀ x ∈ (l.dropWhile p).head?, p x = false := by
  induction l with
  | nil => intro x hx; simp at hx
  | cons a t ih =>
    intro x hx
    by_cases ha : p a
    · rw [List.dropWhile_cons_of_pos ha] at hx
      exact ih x hx
    · rw [List.dropWhile_cons_of_neg ha] at hx
      simp at hx
      subst hx
      exact Bool.eq_false_iff.mpr ha

theorem dropWhile_eq_self_of_head (p : Char → Bool) (l : List Char)
    (h : ∀ x ∈ l.head?, p x = false) : l.dropWhile p = l := by
  cases l with
  | nil => rfl
  | cons a t =>
    have ha : p a = false := h a (by simp)
    rw [List.dropWhile_cons_of_neg (by simp [ha])]

theorem head_mem_of_pref {l₁ l₂ : List Char} (h : l₁ <+: l₂) :
    ∀ x ∈ l₁.head?, x ∈ l₂.head? := by
  obtain ⟨t, ht⟩ := h
  subst ht
  cases l₁ with
  | nil => intro x hx; simp at hx
  | cons a s => intro x hx; simpa using hx

theorem stripStr_prefix_dropWhile (s : Str) :
    stripStr s <+: s.dropWhile isSpace := by
  unfold stripStr
  have h1 : (s.dropWhile isSpace).reverse.dropWhile isSpace <:+
      (s.dropWhile isSpace).reverse := List.dropWhile_suffix isSpace
  have h2 := List.reverse_prefix.mpr h1
  rwa [List.reverse_reverse] at h2

theorem stripStr_head_false (s : Str) :
    ∀ x ∈ (stripStr s).head?, isSpace x = false := by
  intro x hx
  exact dropWhile_head_false isSpace s x
    (head_mem_of_pref (stripStr_prefix_dropWhile s) x hx)

theorem dropWhile_stripStr (s : Str) :
    (stripStr s).dropWhile isSpace = stripStr s :=
  dropWhile_eq_self_of_head isSpace (stripStr s) (stripStr_head_false s)

theorem reverse_stripStr_dropWhile (s : Str) :
    (stripStr s).reverse.dropWhile isSpace = (stripStr s).reverse := by
  refine dropWhile_eq_self_of_head isSpace _ ?_
  unfold stripStr
  rw [List.reverse_reverse]
  exact dropWhile_head_false isSpace (s.dropWhile isSpace).reverse

theorem stripStr_idem (s : Str) : stripStr (stripStr s) = stripStr s := by
  have h : stripStr (stripStr s) =
      (((stripStr s).dropWhile isSpace).reverse.dropWhile isSpace).reverse :=
    rfl
  rw [h, dropWhile_stripStr, reverse_stripStr_dropWhile, List.reverse_reverse]

theorem dropWhile_map_lowerChar (p : Char → Bool)
    (h : ∀ c, p (lowerChar c) = p c) (l : List Char) :
    (l.map lowerChar).dropWhile p = (l.dropWhile p).map lowerChar := by
  induction l with
  | nil => rfl
  | cons a t ih =>
    by_cases ha : p a
    · rw [List.map_cons, List.dropWhile_cons_of_pos (by rw [h a]; exact ha),
        List.dropWhile_cons_of_pos ha, ih]
    · rw [List.map_cons,
        List.dropWhile_cons_of_neg (by rw [h a]; simp [ha]),
        List.dropWhile_cons_of_neg (by simp [ha]), List.map_cons]

theorem stripStr_lowerStr (s : Str) :
    stripStr (lowerStr s) = lowerStr (stripStr s) := by
  unfold stripStr lowerStr
  rw [dropWhile_map_lowerChar isSpace isSpace_lowerChar s, ← List.map_reverse,
    dropWhile_map_lowerChar isSpace isSpace_lowerChar, ← List.map_reverse]

theorem length_stripStr_le (s : Str) : (stripStr s).length ≤ s.length := by
  have h1 := (stripStr_prefix_dropWhile s).length_le
  have h2 := (List.dropWhile_suffix (l := s) isSpace).length_le
  omega

theorem stripStr_eq_self_of_length (s : Str)
    (h : (stripStr s).length = s.length) : stripStr s = s := by
  have h2 := (List.dropWhile_suffix (l := s) isSpace).length_le
  have h1 := (stripStr_prefix_dropWhile s).length_le
  have hd : s.dropWhile isSpace = s :=
    (List.dropWhile_suffix isSpace).eq_of_length (by omega)
  have := (stripStr_prefix_dropWhile s).eq_of_length (by rw [hd]; omega)
  rwa [hd] at this

theorem normalizeName_stripStr_lowerStr (n : Str) :
    normalizeName (stripStr (lowerStr n)) = normalizeName n := by
  unfold normalizeName
  rw [stripStr_idem, stripStr_lowerStr, lowerStr_idem]

/-! ### Python dictionaries and Counters as insertion-ordered association lists -/

/-- First-occurrence lookup in an association list (Python `dict` access). -/
def alookup {α : Type} (k : Str) : List (Str × α) → Option α
  | [] => none
  | (k₁, v) :: rest => if k₁ = k then some v else alookup k rest

/-- Membership test used to model Python `x in list`. -/
def memb (x : Str) : List Str → Bool
  | [] => false
  | y :: ys => if y = x then true else memb x ys

/-- Update the entry at `k` with `f`, inserting `f d` at the end when the key
is absent (Python `defaultdict` access followed by mutation). -/
def updAssoc {α : Type} (l : List (Str × α)) (k : Str) (d : α) (f : α → α) :
    List (Str × α) :=
  match l with
  | [] => [(k, f d)]
  | (k₁, v) :: rest =>
    if k₁ = k then (k₁, f v) :: rest else (k₁, v) :: updAssoc rest k d f

/-- A Python `collections.Counter` keyed by day numbers: an
insertion-ordered list of (day, count) pairs. -/
abbrev DayCounter := List (Nat × Nat)

/-- Counter increment `c[k] += n` (missing keys count as zero and are
appended in insertion order). -/
def cinc (c : DayCounter) (k : Nat) (n : Nat) : DayCounter :=
  match c with
  | [] => [(k, n)]
  | (k₁, v) :: rest => if k₁ = k then (k₁, v + n) :: rest else (k₁, v) :: cinc rest k n

/-- Counter read `c[k]` with default 0. -/
def ccount (c : DayCounter) (k : Nat) : Nat :=
  match c with
  | [] => 0
  | (k₁, v) :: rest => if k₁ = k then v else ccount rest k

/-- Sum of all stored counter values (`sum(c.values())`). -/
def csum (c : DayCounter) : Nat := (c.map Prod.snd).sum

theorem ccount_cinc (c : DayCounter) (k : Nat) (n : Nat) (k₁ : Nat) :
    ccount (cinc c k n) k₁ = ccount c k₁ + if k₁ = k then n else 0 := by
  induction c with
  | nil =>
    simp only [cinc, ccount]
    split_ifs <;> omega
  | cons p rest ih =>
    obtain ⟨k₂, v⟩ := p
    by_cases h2 : k₂ = k
    · subst h2
      simp only [cinc, if_pos rfl, ccount]
      split_ifs <;> omega
    · simp only [cinc, if_neg h2, ccount]
      by_cases h1 : k₂ = k₁
      · have hk : ¬k₁ = k := fun hh => h2 (h1.trans hh)
        rw [if_pos h1, if_pos h1, if_neg hk]
        omega
      · rw [if_neg h1, if_neg h1, ih]

theorem csum_cinc (c : DayCounter) (k : Nat) (n : Nat) :
    csum (cinc c k n) = csum c + n := by
  induction c with
  | nil => simp [cinc, csum]
  | cons p rest ih =>
    obtain ⟨k₂, v⟩ := p
    simp only [cinc]
    by_cases h : k₂ = k
    · rw [if_pos h]; simp [csum]; omega
    · rw [if_neg h]; simp only [csum, List.map_cons, List.sum_cons] at ih ⊢
      omega

/-- Keys of a counter. -/
def ckeys (c : DayCounter) : List Nat := c.map Prod.fst

theorem mem_ckeys_cinc (c : DayCounter) (k n x : Nat) :
    x ∈ ckeys (cinc c k n) ↔ x ∈ ckeys c ∨ x = k := by
  induction c with
  | nil => simp [cinc, ckeys]
  | cons p rest ih =>
    obtain ⟨k₂, v⟩ := p
    by_cases h : k₂ = k
    · have hc : cinc ((k₂, v) :: rest) k n = (k₂, v + n) :: rest := by
        simp [cinc, h]
      rw [hc]
      subst h
      simp only [ckeys, List.map_cons, List.mem_cons]
      tauto
    · simp only [cinc, if_neg h, ckeys, List.map_cons, List.mem_cons] at ih ⊢
      tauto

/-- Well-formedness of a counter: its keys are distinct (true of every
counter the aggregator builds, since Python dict keys are unique). -/
def CounterWF (c : DayCounter) : Prop := (ckeys c).Nodup

theorem counterWF_nil : CounterWF [] := List.nodup_nil

theorem counterWF_cinc (c : DayCounter) (k n : Nat) (h : CounterWF c) :
    CounterWF (cinc c k n) := by
  induction c with
  | nil => simp [cinc, CounterWF, ckeys]
  | cons p rest ih =>
    obtain ⟨k₂, v⟩ := p
    unfold CounterWF at h ⊢
    simp only [ckeys, List.map_cons, List.nodup_cons] at h
    obtain ⟨hk₂, hrest⟩ := h
    simp only [cinc]
    by_cases hc : k₂ = k
    · rw [if_pos hc]
      simp only [ckeys, List.map_cons, List.nodup_cons]
      exact ⟨hk₂, hrest⟩
    · rw [if_neg hc]
      simp only [ckeys, List.map_cons, List.nodup_cons]
      refine ⟨?_, ih hrest⟩
      intro hmem
      rcases (mem_ckeys_cinc rest k n k₂).mp hmem with h1 | h1
      · exact hk₂ h1
      · exact hc h1

theorem ccount_head (k : Nat) (v : Nat) (rest : DayCounter) :
    ccount ((k, v) :: rest) k = v := by
  simp [ccount]

theorem ccount_tail (k₂ v : Nat) (rest : DayCounter) (k : Nat) (h : k₂ ≠ k) :
    ccount ((k₂, v) :: rest) k = ccount rest k := by
  simp [ccount, h]

theorem alookup_updAssoc {α : Type} (l : List (Str × α)) (k : Str) (d : α)
    (f : α → α) (k₁ : Str) :
    alookup k₁ (updAssoc l k d f) =
      if k₁ = k then some (f ((alookup k l).getD d)) else alookup k₁ l := by
  induction l with
  | nil =>
    simp only [updAssoc, alookup]
    by_cases h : k₁ = k
    · rw [if_pos (h.symm), if_pos h]
      simp [alookup]
    · rw [if_neg (fun hh => h hh.symm), if_neg h]
  | cons p rest ih =>
    obtain ⟨k₂, v⟩ := p
    by_cases h2 : k₂ = k
    · have hu : updAssoc ((k₂, v) :: rest) k d f = (k₂, f v) :: rest := by
        simp [updAssoc, h2]
      rw [hu]
      subst h2
      by_cases h1 : k₁ = k₂
      · subst h1
        simp [alookup]
      · simp only [alookup, if_neg (fun hh : k₂ = k₁ => h1 hh.symm),
          if_neg h1]
    · have hu : updAssoc ((k₂, v) :: rest) k d f =
          (k₂, v) :: updAssoc rest k d f := by
        simp [updAssoc, h2]
      rw [hu]
      by_cases h1 : k₂ = k₁
      · have hk : ¬k₁ = k := fun hh => h2 (h1.trans hh)
        simp only [alookup, if_pos h1, if_neg hk]
      · simp only [alookup, if_neg h1]
        rw [ih]
        by_cases hk : k₁ = k
        · rw [if_pos hk, if_pos hk]
          simp [alookup, h2]
        · rw [if_neg hk, if_neg hk]

theorem updAssoc_preserves {α : Type} (P : α → Prop) (l : List (Str × α))
    (k : Str) (d : α) (f : α → α)
    (hl : ∀ p ∈ l, P p.2) (hd : P d) (hf : ∀ v, P v → P (f v)) :
    ∀ p ∈ updAssoc l k d f, P p.2 := by
  induction l with
  | nil =>
    intro p hp
    simp only [updAssoc, List.mem_singleton] at hp
    subst hp
    exact hf d hd
  | cons q rest ih =>
    obtain ⟨k₂, v⟩ := q
    intro p hp
    by_cases h2 : k₂ = k
    · rw [show updAssoc ((k₂, v) :: rest) k d f = (k₂, f v) :: rest by
        simp [updAssoc, h2]] at hp
      rcases List.mem_cons.mp hp with h | h
      · subst h
        exact hf v (hl (k₂, v) (List.mem_cons_self _ _))
      · exact hl p (List.mem_cons_of_mem _ h)
    · rw [show updAssoc ((k₂, v) :: rest) k d f =
          (k₂, v) :: updAssoc rest k d f by simp [updAssoc, h2]] at hp
      rcases List.mem_cons.mp hp with h | h
      · subst h
        exact hl (k₂, v) (List.mem_cons_self _ _)
      · exact ih (fun q hq => hl q (List.mem_cons_of_mem _ hq)) p h

/-- Sum of a numeric measure of the values of an association list. -/
def sumVals {α : Type} (B : α → Nat) (l : List (Str × α)) : Nat :=
  (l.map fun p => B p.2).sum

theorem sumVals_updAssoc {α : Type} (B : α → Nat) (l : List (Str × α))
    (k : Str) (d : α) (f : α → α) (inc : Nat)
    (hd : B d = 0) (hf : ∀ v, B (f v) = B v + inc) :
    sumVals B (updAssoc l k d f) = sumVals B l + inc := by
  induction l with
  | nil => simp [updAssoc, sumVals, hf, hd]
  | cons q rest ih =>
    obtain ⟨k₂, v⟩ := q
    by_cases h2 : k₂ = k
    · rw [show updAssoc ((k₂, v) :: rest) k d f = (k₂, f v) :: rest by
        simp [updAssoc, h2]]
      simp only [sumVals, List.map_cons, List.sum_cons, hf]
      omega
    · rw [show updAssoc ((k₂, v) :: rest) k d f =
          (k₂, v) :: updAssoc rest k d f by simp [updAssoc, h2]]
      simp only [sumVals, List.map_cons, List.sum_cons] at ih ⊢
      omega

/-! ### Alias resolution (`src/utils.py`, function `map_alias_to_name`) -/

/-- An alias table: group label to (normalized raw name to unified name),
with the reserved group label `"global"`. -/
abbrev AliasTable := List (Str × List (Str × Str))

/-- The reserved fallback group label. -/
def globalKey : Str := "global".toList

/-- Model of `utils.map_alias_to_name`: normalize the author name
(`strip` then `lower`), consult the group-specific table, then the
`"global"` table, and finally fall back to the normalized name itself. -/
def map_alias_to_name (author_name : Str) (group_label : Str)
    (alias_mapping_by_group : AliasTable) : Str :=
  let normalized_author := lowerStr (stripStr author_name)
  let group_hit : Option Str :=
    match alookup group_label alias_mapping_by_group with
    | some grp_dict => alookup normalized_author grp_dict
    | none => none
  match group_hit with
  | some unified => unified
  | none =>
    let global_dict := (alookup globalKey alias_mapping_by_group).getD []
    match alookup normalized_author global_dict with
    | some unified => unified
    | none => normalized_author

theorem map_alias_eq_of_normalizeName (n₁ n₂ group_label : Str)
    (tbl : AliasTable) (h : normalizeName n₁ = normalizeName n₂) :
    map_alias_to_name n₁ group_label tbl = map_alias_to_name n₂ group_label tbl := by
  unfold map_alias_to_name
  unfold normalizeName at h
  rw [h]

/-! ### Commit aggregation (`src/git_analyzer.py`, `collect_changes_by_group`)

Datetimes are modelled as natural numbers counting seconds; the day bucket
`commit_date.strftime(a day format)` is modelled as the day number
`committed_date / 86400`.  A branch is the list of items its traversal
yields: commits, possibly cut short by a `failure` (the exception caught by
the per-branch `try`/`except` in the source, e.g. a corrupted object
encountered mid-iteration). -/

/-- The data of one commit as consumed by the aggregator. -/
structure Commit where
  author_name : Str
  committed_date : Nat
  insertions : Nat
  deletions : Nat
deriving DecidableEq

/-- One item yielded while traversing a branch: a commit, or the point at
which traversal raises. -/
inductive TraversalItem where
  | commit (c : Commit)
  | failure
deriving DecidableEq

abbrev Branch := List TraversalItem

/-- The per-author record of `collect_changes_by_group`. -/
structure AuthorData where
  insertions : Nat
  deletions : Nat
  daily_commits : DayCounter
  daily_insertions : DayCounter
  daily_deletions : DayCounter
  active_days : Nat
deriving DecidableEq

/-- The defaultdict initial value for an author. -/
def initAuthorData : AuthorData :=
  { insertions := 0, deletions := 0, daily_commits := [],
    daily_insertions := [], daily_deletions := [], active_days := 0 }

/-- The nested dictionary `{group: {unified_author: AuthorData}}`. -/
abbrev Dataset := List (Str × List (Str × AuthorData))

/-- Defaultdict update of the nested dictionary at `(g, a)`. -/
def touch (ds : Dataset) (g a : Str) (f : AuthorData → AuthorData) : Dataset :=
  updAssoc ds g [] fun grp => updAssoc grp a initAuthorData f

/-- Model of the author-exclusion test
`author_raw in map(str.lower, excluded)` where
`author_raw = commit.author.name.strip().lower()`: the author name is
stripped and lowered, each excluded entry is lowered but not stripped. -/
def isExcluded (author_name : Str) (excluded : List Str) : Bool :=
  memb (lowerStr (stripStr author_name)) (excluded.map lowerStr)

/-- The per-commit body of the branch loop in `collect_changes_by_group`:
date-window filter, exclusion filter, alias resolution, then the three
counter increments on the day bucket. -/
def process_commit (start_date end_date : Nat) (excluded : List Str)
    (group_label : Str) (tbl : AliasTable) (ds : Dataset) (c : Commit) :
    Dataset :=
  if start_date ≤ c.committed_date ∧ c.committed_date < end_date then
    if isExcluded c.author_name excluded then ds
    else
      let author_raw := lowerStr (stripStr c.author_name)
      let unified_name := map_alias_to_name author_raw group_label tbl
      let day_str := c.committed_date / 86400
      touch ds group_label unified_name fun ch =>
        { ch with
          daily_commits := cinc ch.daily_commits day_str 1,
          daily_insertions := cinc ch.daily_insertions day_str c.insertions,
          daily_deletions := cinc ch.daily_deletions day_str c.deletions }
  else ds

/-- Traversal of one branch: process commits in order; a failure aborts the
rest of this branch only, keeping what was accumulated so far (the
`try`/`except` around the commit loop). -/
def process_branch (start_date end_date : Nat) (excluded : List Str)
    (group_label : Str) (tbl : AliasTable) : Dataset → Branch → Dataset
  | ds, [] => ds
  | ds, TraversalItem.commit c :: rest =>
    process_branch start_date end_date excluded group_label tbl
      (process_commit start_date end_date excluded group_label tbl ds c) rest
  | ds, TraversalItem.failure :: _ => ds

/-- The final summarizing pass of `collect_changes_by_group`: totals are
recomputed from the daily counters, and active days is the number of days
carrying a positive commit count. -/
def finalize_data (d : AuthorData) : AuthorData :=
  { d with
    insertions := csum d.daily_insertions,
    deletions := csum d.daily_deletions,
    active_days := (d.daily_commits.filter fun p => 0 < p.2).length }

/-- Apply the summarizing pass to every `(group, member)` entry. -/
def finalize (ds : Dataset) : Dataset :=
  ds.map fun ge => (ge.1, ge.2.map fun md => (md.1, finalize_data md.2))

/-- Model of `git_analyzer.collect_changes_by_group` from the point where
the branch list has been enumerated: fold the branch traversals over the
empty dataset, then summarize.  (Repository opening and remote fetching,
which precede this and can only yield an empty dataset or this fold, are
modelled by the caller supplying the branch list.) -/
def collect_changes_by_group (start_date end_date : Nat)
    (excluded : List Str) (group_label : Str) (tbl : AliasTable)
    (branches : List Branch) : Dataset :=
  finalize (branches.foldl
    (process_branch start_date end_date excluded group_label tbl) [])

/-- Total commit count stored in a dataset (all groups, members, days). -/
def totalCommits (ds : Dataset) : Nat :=
  sumVals (fun e => sumVals (fun d => csum d.daily_commits) e) ds

/-- The group dictionary for `g` (defaultdict view, empty when absent). -/
def getGroup (ds : Dataset) (g : Str) : List (Str × AuthorData) :=
  (alookup g ds).getD []

/-- The author record at `(g, a)` (defaultdict view). -/
def getMember (ds : Dataset) (g a : Str) : AuthorData :=
  (alookup a (getGroup ds g)).getD initAuthorData

/-- Per-day commit count recorded at `(g, a, day)`. -/
def dayCommits (ds : Dataset) (g a : Str) (day : Nat) : Nat :=
  ccount (getMember ds g a).daily_commits day

/-- Per-day insertion count recorded at `(g, a, day)`. -/
def dayInsertions (ds : Dataset) (g a : Str) (day : Nat) : Nat :=
  ccount (getMember ds g a).daily_insertions day

/-- Per-day deletion count recorded at `(g, a, day)`. -/
def dayDeletions (ds : Dataset) (g a : Str) (day : Nat) : Nat :=
  ccount (getMember ds g a).daily_deletions day

/-- Total commits accumulated at `(g, a)` over all days. -/
def totCommitsAt (ds : Dataset) (g a : Str) : Nat :=
  csum (getMember ds g a).daily_commits

/-- Total insertions accumulated at `(g, a)` over all days. -/
def totInsertionsAt (ds : Dataset) (g a : Str) : Nat :=
  csum (getMember ds g a).daily_insertions

/-- Total deletions accumulated at `(g, a)` over all days. -/
def totDeletionsAt (ds : Dataset) (g a : Str) : Nat :=
  csum (getMember ds g a).daily_deletions

theorem getMember_touch (ds : Dataset) (g₀ a₀ : Str)
    (f : AuthorData → AuthorData) (g a : Str) :
    getMember (touch ds g₀ a₀ f) g a =
      if g = g₀ ∧ a = a₀ then f (getMember ds g₀ a₀) else getMember ds g a := by
  unfold getMember getGroup touch
  rw [alookup_updAssoc]
  by_cases hg : g = g₀
  · rw [if_pos hg]
    simp only [Option.getD_some]
    rw [alookup_updAssoc]
    by_cases ha : a = a₀
    · rw [if_pos ha, if_pos ⟨hg, ha⟩]
      subst hg; subst ha
      simp
    · rw [if_neg ha, if_neg (fun h => ha h.2)]
      subst hg
      rfl
  · rw [if_neg hg, if_neg (fun h => hg h.1)]

/-- The unified author name the aggregator files commit `c` under (the
code passes the already-normalized raw name to `map_alias_to_name`). -/
def unifiedOf (c : Commit) (group_label : Str) (tbl : AliasTable) : Str :=
  map_alias_to_name (lowerStr (stripStr c.author_name)) group_label tbl

/-- Commit `c` passes both filters and is filed under `(g, a)`. -/
abbrev hitGA (start_date end_date : Nat) (excluded : List Str) (g₀ : Str)
    (tbl : AliasTable) (g a : Str) (c : Commit) : Prop :=
  (start_date ≤ c.committed_date ∧ c.committed_date < end_date) ∧
  isExcluded c.author_name excluded = false ∧
  g = g₀ ∧ a = unifiedOf c g₀ tbl

theorem getMember_process_commit (start_date end_date : Nat)
    (excluded : List Str) (g₀ : Str) (tbl : AliasTable) (ds : Dataset)
    (c : Commit) (g a : Str) :
    getMember (process_commit start_date end_date excluded g₀ tbl ds c) g a =
      if hitGA start_date end_date excluded g₀ tbl g a c then
        { getMember ds g₀ (unifiedOf c g₀ tbl) with
          daily_commits :=
            cinc (getMember ds g₀ (unifiedOf c g₀ tbl)).daily_commits
              (c.committed_date / 86400) 1,
          daily_insertions :=
            cinc (getMember ds g₀ (unifiedOf c g₀ tbl)).daily_insertions
              (c.committed_date / 86400) c.insertions,
          daily_deletions :=
            cinc (getMember ds g₀ (unifiedOf c g₀ tbl)).daily_deletions
              (c.committed_date / 86400) c.deletions }
      else getMember ds g a := by
  by_cases hw : start_date ≤ c.committed_date ∧ c.committed_date < end_date
  · by_cases hx : isExcluded c.author_name excluded = true
    · have hc : ¬hitGA start_date end_date excluded g₀ tbl g a c := by
        intro hc
        rw [hc.2.1] at hx
        cases hx
      rw [if_neg hc]
      simp only [process_commit, if_pos hw, if_pos hx]
    · have hx' : isExcluded c.author_name excluded = false := by
        simpa using hx
      have hstep : process_commit start_date end_date excluded g₀ tbl ds c =
          touch ds g₀ (unifiedOf c g₀ tbl) fun ch =>
            { ch with
              daily_commits :=
                cinc ch.daily_commits (c.committed_date / 86400) 1,
              daily_insertions :=
                cinc ch.daily_insertions (c.committed_date / 86400) c.insertions,
              daily_deletions :=
                cinc ch.daily_deletions (c.committed_date / 86400) c.deletions } := by
        simp only [process_commit, if_pos hw, hx', if_false, Bool.false_eq_true]
        rfl
      rw [hstep, getMember_touch]
      by_cases hga : g = g₀ ∧ a = unifiedOf c g₀ tbl
      · rw [if_pos hga, if_pos ⟨hw, hx', hga.1, hga.2⟩]
      · rw [if_neg hga, if_neg (fun hc => hga ⟨hc.2.2.1, hc.2.2.2⟩)]
  · have hc : ¬hitGA start_date end_date excluded g₀ tbl g a c :=
      fun hc => hw hc.1
    rw [if_neg hc]
    simp only [process_commit, if_neg hw]

/-- The accumulation step of `collect_changes_by_group` applied to a plain
list of commits (one branch segment without failures). -/
def aggregateCommits (start_date end_date : Nat) (excluded : List Str)
    (g₀ : Str) (tbl : AliasTable) (ds : Dataset) (l : List Commit) : Dataset :=
  l.foldl (process_commit start_date end_date excluded g₀ tbl) ds

theorem aggregate_measure (start_date end_date : Nat) (excluded : List Str)
    (g₀ : Str) (tbl : AliasTable) (F : Dataset → Nat) (w : Commit → Nat)
    (hF : ∀ ds c,
      F (process_commit start_date end_date excluded g₀ tbl ds c) = F ds + w c) :
    ∀ (l : List Commit) (ds : Dataset),
      F (aggregateCommits start_date end_date excluded g₀ tbl ds l) =
        F ds + (l.map w).sum := by
  intro l
  induction l with
  | nil => intro ds; simp [aggregateCommits]
  | cons c rest ih =>
    intro ds
    have h1 : aggregateCommits start_date end_date excluded g₀ tbl ds (c :: rest) =
        aggregateCommits start_date end_date excluded g₀ tbl
          (process_commit start_date end_date excluded g₀ tbl ds c) rest := rfl
    rw [h1, ih, hF]
    simp only [List.map_cons, List.sum_cons]
    omega

theorem dayCommits_step (start_date end_date : Nat) (excluded : List Str)
    (g₀ : Str) (tbl : AliasTable) (ds : Dataset) (c : Commit) (g a : Str)
    (day : Nat) :
    dayCommits (process_commit start_date end_date excluded g₀ tbl ds c) g a day =
      dayCommits ds g a day +
        if hitGA start_date end_date excluded g₀ tbl g a c ∧
            day = c.committed_date / 86400 then 1 else 0 := by
  unfold dayCommits
  rw [getMember_process_commit]
  by_cases hga : hitGA start_date end_date excluded g₀ tbl g a c
  · rw [if_pos hga]
    obtain ⟨hw, hx, hg, ha⟩ := hga
    subst hg; subst ha
    simp only [ccount_cinc]
    by_cases hd : day = c.committed_date / 86400
    · rw [if_pos hd, if_pos ⟨⟨hw, hx, rfl, rfl⟩, hd⟩]
    · rw [if_neg hd, if_neg (fun h => hd h.2)]
  · rw [if_neg hga, if_neg (fun h => hga h.1)]
    omega

theorem dayInsertions_step (start_date end_date : Nat) (excluded : List Str)
    (g₀ : Str) (tbl : AliasTable) (ds : Dataset) (c : Commit) (g a : Str)
    (day : Nat) :
    dayInsertions (process_commit start_date end_date excluded g₀ tbl ds c) g a day =
      dayInsertions ds g a day +
        if hitGA start_date end_date excluded g₀ tbl g a c ∧
            day = c.committed_date / 86400 then c.insertions else 0 := by
  unfold dayInsertions
  rw [getMember_process_commit]
  by_cases hga : hitGA start_date end_date excluded g₀ tbl g a c
  · rw [if_pos hga]
    obtain ⟨hw, hx, hg, ha⟩ := hga
    subst hg; subst ha
    simp only [ccount_cinc]
    by_cases hd : day = c.committed_date / 86400
    · rw [if_pos hd, if_pos ⟨⟨hw, hx, rfl, rfl⟩, hd⟩]
    · rw [if_neg hd, if_neg (fun h => hd h.2)]
  · rw [if_neg hga, if_neg (fun h => hga h.1)]
    omega

theorem dayDeletions_step (start_date end_date : Nat) (excluded : List Str)
    (g₀ : Str) (tbl : AliasTable) (ds : Dataset) (c : Commit) (g a : Str)
    (day : Nat) :
    dayDeletions (process_commit start_date end_date excluded g₀ tbl ds c) g a day =
      dayDeletions ds g a day +
        if hitGA start_date end_date excluded g₀ tbl g a c ∧
            day = c.committed_date / 86400 then c.deletions else 0 := by
  unfold dayDeletions
  rw [getMember_process_commit]
  by_cases hga : hitGA start_date end_date excluded g₀ tbl g a c
  · rw [if_pos hga]
    obtain ⟨hw, hx, hg, ha⟩ := hga
    subst hg; subst ha
    simp only [ccount_cinc]
    by_cases hd : day = c.committed_date / 86400
    · rw [if_pos hd, if_pos ⟨⟨hw, hx, rfl, rfl⟩, hd⟩]
    · rw [if_neg hd, if_neg (fun h => hd h.2)]
  · rw [if_neg hga, if_neg (fun h => hga h.1)]
    omega

theorem totCommitsAt_step (start_date end_date : Nat) (excluded : List Str)
    (g₀ : Str) (tbl : AliasTable) (ds : Dataset) (c : Commit) (g a : Str) :
    totCommitsAt (process_commit start_date end_date excluded g₀ tbl ds c) g a =
      totCommitsAt ds g a +
        if hitGA start_date end_date excluded g₀ tbl g a c then 1 else 0 := by
  unfold totCommitsAt
  rw [getMember_process_commit]
  by_cases hga : hitGA start_date end_date excluded g₀ tbl g a c
  · rw [if_pos hga, if_pos hga]
    obtain ⟨hw, hx, hg, ha⟩ := hga
    subst hg; subst ha
    simp only [csum_cinc]
  · rw [if_neg hga, if_neg hga]
    omega

theorem totInsertionsAt_step (start_date end_date : Nat) (excluded : List Str)
    (g₀ : Str) (tbl : AliasTable) (ds : Dataset) (c : Commit) (g a : Str) :
    totInsertionsAt (process_commit start_date end_date excluded g₀ tbl ds c) g a =
      totInsertionsAt ds g a +
        if hitGA start_date end_date excluded g₀ tbl g a c then c.insertions else 0 := by
  unfold totInsertionsAt
  rw [getMember_process_commit]
  by_cases hga : hitGA start_date end_date excluded g₀ tbl g a c
  · rw [if_pos hga, if_pos hga]
    obtain ⟨hw, hx, hg, ha⟩ := hga
    subst hg; subst ha
    simp only [csum_cinc]
  · rw [if_neg hga, if_neg hga]
    omega

theorem totDeletionsAt_step (start_date end_date : Nat) (excluded : List Str)
    (g₀ : Str) (tbl : AliasTable) (ds : Dataset) (c : Commit) (g a : Str) :
    totDeletionsAt (process_commit start_date end_date excluded g₀ tbl ds c) g a =
      totDeletionsAt ds g a +
        if hitGA start_date end_date excluded g₀ tbl g a c then c.deletions else 0 := by
  unfold totDeletionsAt
  rw [getMember_process_commit]
  by_cases hga : hitGA start_date end_date excluded g₀ tbl g a c
  · rw [if_pos hga, if_pos hga]
    obtain ⟨hw, hx, hg, ha⟩ := hga
    subst hg; subst ha
    simp only [csum_cinc]
  · rw [if_neg hga, if_neg hga]
    omega

theorem totalCommits_process_commit (start_date end_date : Nat)
    (excluded : List Str) (g₀ : Str) (tbl : AliasTable) (ds : Dataset)
    (c : Commit) (hex : isExcluded c.author_name excluded = false) :
    totalCommits (process_commit start_date end_date excluded g₀ tbl ds c) =
      totalCommits ds +
        if start_date ≤ c.committed_date ∧ c.committed_date < end_date
        then 1 else 0 := by
  by_cases hw : start_date ≤ c.committed_date ∧ c.committed_date < end_date
  · rw [if_pos hw]
    have hstep : process_commit start_date end_date excluded g₀ tbl ds c =
        touch ds g₀ (unifiedOf c g₀ tbl) fun ch =>
          { ch with
            daily_commits :=
              cinc ch.daily_commits (c.committed_date / 86400) 1,
            daily_insertions :=
              cinc ch.daily_insertions (c.committed_date / 86400) c.insertions,
            daily_deletions :=
              cinc ch.daily_deletions (c.committed_date / 86400) c.deletions } := by
      simp only [process_commit, if_pos hw, hex, if_false, Bool.false_eq_true]
      rfl
    rw [hstep]
    unfold touch totalCommits
    refine sumVals_updAssoc _ _ _ _ _ 1 rfl fun grp => ?_
    exact sumVals_updAssoc _ _ _ _ _ 1 rfl fun v => by
      simp only [csum_cinc]
  · rw [if_neg hw]
    simp only [process_commit, if_neg hw]
    omega

/-- Every daily-commit counter in the dataset has distinct day keys (true
of the Python dicts the counters model). -/
def DatasetWF (ds : Dataset) : Prop :=
  ∀ ge ∈ ds, ∀ md ∈ ge.2, CounterWF md.2.daily_commits

theorem datasetWF_nil : DatasetWF [] := fun _ h => absurd h (List.not_mem_nil _)

theorem process_commit_eq_touch (start_date end_date : Nat)
    (excluded : List Str) (g₀ : Str) (tbl : AliasTable) (ds : Dataset)
    (c : Commit)
    (hw : start_date ≤ c.committed_date ∧ c.committed_date < end_date)
    (hex : isExcluded c.author_name excluded = false) :
    process_commit start_date end_date excluded g₀ tbl ds c =
      touch ds g₀ (unifiedOf c g₀ tbl) fun ch =>
        { ch with
          daily_commits := cinc ch.daily_commits (c.committed_date / 86400) 1,
          daily_insertions :=
            cinc ch.daily_insertions (c.committed_date / 86400) c.insertions,
          daily_deletions :=
            cinc ch.daily_deletions (c.committed_date / 86400) c.deletions } := by
  simp only [process_commit, if_pos hw, hex, if_false, Bool.false_eq_true]
  rfl

theorem datasetWF_process_commit (start_date end_date : Nat)
    (excluded : List Str) (g₀ : Str) (tbl : AliasTable) (ds : Dataset)
    (c : Commit) (h : DatasetWF ds) :
    DatasetWF (process_commit start_date end_date excluded g₀ tbl ds c) := by
  by_cases hw : start_date ≤ c.committed_date ∧ c.committed_date < end_date
  · by_cases hx : isExcluded c.author_name excluded = true
    · have hskip : process_commit start_date end_date excluded g₀ tbl ds c = ds := by
        simp only [process_commit, if_pos hw, if_pos hx]
      rw [hskip]; exact h
    · have hx' : isExcluded c.author_name excluded = false := by simpa using hx
      rw [process_commit_eq_touch start_date end_date excluded g₀ tbl ds c hw hx']
      unfold touch
      intro ge hge
      refine updAssoc_preserves
        (fun grp : List (Str × AuthorData) =>
          ∀ md ∈ grp, CounterWF md.2.daily_commits)
        ds g₀ [] _ h (fun _ hmd => absurd hmd (List.not_mem_nil _)) ?_ ge hge
      intro grp hgrp
      refine updAssoc_preserves
        (fun d : AuthorData => CounterWF d.daily_commits) grp _
        initAuthorData _ hgrp counterWF_nil ?_
      intro v hv
      exact counterWF_cinc _ _ _ hv
  · have hskip : process_commit start_date end_date excluded g₀ tbl ds c = ds := by
      simp only [process_commit, if_neg hw]
    rw [hskip]; exact h

theorem datasetWF_process_branch (start_date end_date : Nat)
    (excluded : List Str) (g₀ : Str) (tbl : AliasTable) :
    ∀ (b : Branch) (ds : Dataset), DatasetWF ds →
      DatasetWF (process_branch start_date end_date excluded g₀ tbl ds b) := by
  intro b
  induction b with
  | nil => intro ds h; exact h
  | cons item rest ih =>
    intro ds h
    cases item with
    | commit c =>
      exact ih _ (datasetWF_process_commit _ _ _ _ _ _ _ h)
    | failure => exact h

theorem datasetWF_fold (start_date end_date : Nat) (excluded : List Str)
    (g₀ : Str) (tbl : AliasTable) :
    ∀ (branches : List Branch) (ds : Dataset), DatasetWF ds →
      DatasetWF (branches.foldl
        (process_branch start_date end_date excluded g₀ tbl) ds) := by
  intro branches
  induction branches with
  | nil => intro ds h; exact h
  | cons b rest ih =>
    intro ds h
    exact ih _ (datasetWF_process_branch _ _ _ _ _ b ds h)

/-- The number of distinct days whose commit count in the counter is at
least 1.  Days never recorded in the counter have count 0, so this is
exactly the number of days with a positive daily commit count. -/
def numActiveDays (dc : DayCounter) : Nat :=
  ((ckeys dc).toFinset.filter fun day => 1 ≤ ccount dc day).card

theorem filter_pos_length (dc : DayCounter) (h : CounterWF dc) :
    (dc.filter fun p => 0 < p.2).length =
      ((ckeys dc).filter fun day => 1 ≤ ccount dc day).length := by
  induction dc with
  | nil => rfl
  | cons p rest ih =>
    obtain ⟨k, v⟩ := p
    unfold CounterWF at h
    simp only [ckeys, List.map_cons, List.nodup_cons] at h
    obtain ⟨hk, hrest⟩ := h
    have hcong : (List.filter (fun day => decide (1 ≤ ccount ((k, v) :: rest) day))
          (List.map Prod.fst rest)) =
        (List.filter (fun day => decide (1 ≤ ccount rest day))
          (List.map Prod.fst rest)) := by
      refine List.filter_congr fun day hday => ?_
      have hne : k ≠ day := fun hh => hk (hh ▸ hday)
      rw [decide_eq_decide, ccount_tail k v rest day hne]
    have ihm := ih hrest
    simp only [ckeys] at ihm
    simp only [List.filter_cons, ckeys, List.map_cons]
    rw [ccount_head]
    by_cases hv : 0 < v
    · have h1 : decide (0 < v) = true := by simpa using hv
      have h2 : decide (1 ≤ v) = true := by simpa using hv
      simp only [h1, h2, if_true, List.length_cons]
      rw [hcong, ihm]
    · have h1 : decide (0 < v) = false := by simpa using hv
      have h2 : decide (1 ≤ v) = false := by
        simp only [decide_eq_false_iff_not]
        omega
      simp only [h1, h2, if_false, Bool.false_eq_true]
      rw [hcong, ihm]

theorem active_length_eq (dc : DayCounter) (h : CounterWF dc) :
    (dc.filter fun p => 0 < p.2).length = numActiveDays dc := by
  rw [filter_pos_length dc h]
  unfold numActiveDays
  have h1 : ((ckeys dc).toFinset.filter fun day => 1 ≤ ccount dc day) =
      ((ckeys dc).filter fun day => 1 ≤ ccount dc day).toFinset := by
    ext x
    simp [List.mem_filter]
  rw [h1, List.toFinset_card_of_nodup (h.filter _)]

/-! ### Balance indicators (`src/report_generator.py`,
`calculate_balance_indicators`)

The input is the global-statistics table read back from CSV: per group an
insertion-ordered list of members with their four integer columns.  Python
float division of the two non-negative integers is modelled exactly in ℚ. -/

/-- One row of the global statistics per member. -/
structure MemberStats where
  insertions : Nat
  deletions : Nat
  total_commits : Nat
  active_days : Nat
deriving DecidableEq

/-- The balance indicator of one group. -/
structure BalanceInfo where
  dominant_ratio : ℚ
  dominant_member : Option Str
deriving DecidableEq

/-- Python `max` over the commit totals.  The source applies `max` only
under the guard `total_commits > 0`, where the list is nonempty and this
fold agrees with it. -/
def pyMax (l : List Nat) : Nat := l.foldr max 0

/-- Total commits of a group (`sum(m[a commits key] for m in members)`). -/
def groupTotal (members : List (Str × MemberStats)) : Nat :=
  (members.map fun p => p.2.total_commits).sum

/-- The `for mem, val in members: if val == max: ... break` search for the
first member holding the maximal commit count. -/
def findDominant (members : List (Str × MemberStats)) (mx : Nat) : Option Str :=
  match members with
  | [] => none
  | (mem, val) :: rest =>
    if val.total_commits = mx then some mem else findDominant rest mx

/-- The per-group body of `calculate_balance_indicators`. -/
def balanceOf (members : List (Str × MemberStats)) : BalanceInfo :=
  if 0 < groupTotal members then
    { dominant_ratio :=
        ((pyMax (members.map fun p => p.2.total_commits) : ℚ) /
          (groupTotal members : ℚ)),
      dominant_member :=
        findDominant members (pyMax (members.map fun p => p.2.total_commits)) }
  else
    { dominant_ratio := 0, dominant_member := none }

/-- Model of `report_generator.calculate_balance_indicators`. -/
def calculate_balance_indicators
    (data : List (Str × List (Str × MemberStats))) : List (Str × BalanceInfo) :=
  data.map fun p => (p.1, balanceOf p.2)

theorem le_pyMax (l : List Nat) : ∀ x ∈ l, x ≤ pyMax l := by
  induction l with
  | nil => intro x hx; cases hx
  | cons a rest ih =>
    intro x hx
    rcases List.mem_cons.mp hx with h | h
    · subst h
      simp only [pyMax, List.foldr_cons]
      exact Nat.le_max_left _ _
    · have := ih x h
      simp only [pyMax, List.foldr_cons]
      exact le_trans this (Nat.le_max_right _ _)

theorem pyMax_mem (l : List Nat) (h : 0 < pyMax l) : pyMax l ∈ l := by
  induction l with
  | nil => simp [pyMax] at h
  | cons a rest ih =>
    simp only [pyMax, List.foldr_cons] at h ⊢
    rcases Nat.le_total (rest.foldr max 0) a with hle | hle
    · rw [Nat.max_eq_left hle]
      exact List.mem_cons_self _ _
    · rw [Nat.max_eq_right hle] at h ⊢
      exact List.mem_cons_of_mem _ (ih h)

theorem exists_pos_of_sum_pos (l : List Nat) (h : 0 < l.sum) :
    ∃ x ∈ l, 0 < x := by
  by_contra hc
  push_neg at hc
  have : ∀ x ∈ l, x = 0 := fun x hx => Nat.le_zero.mp (hc x hx)
  have : l.sum = 0 := List.sum_eq_zero this
  omega

theorem findDominant_spec (members : List (Str × MemberStats)) (mx : Nat)
    (hex : ∃ p ∈ members, p.2.total_commits = mx) :
    ∃ m s pre post,
      members = pre ++ (m, s) :: post ∧ s.total_commits = mx ∧
      findDominant members mx = some m ∧
      ∀ q ∈ pre, q.2.total_commits ≠ mx := by
  induction members with
  | nil =>
    obtain ⟨p, hp, _⟩ := hex
    cases hp
  | cons q rest ih =>
    obtain ⟨mem, val⟩ := q
    by_cases hq : val.total_commits = mx
    · refine ⟨mem, val, [], rest, rfl, hq, ?_, fun q hq => absurd hq (List.not_mem_nil _)⟩
      simp [findDominant, hq]
    · obtain ⟨p, hp, hpmx⟩ := hex
      rcases List.mem_cons.mp hp with h | h
      · exfalso
        apply hq
        rw [← hpmx, h]
      · obtain ⟨m, s, pre, post, hsplit, hmx, hfind, hpre⟩ :=
          ih ⟨p, h, hpmx⟩
        refine ⟨m, s, (mem, val) :: pre, post, ?_, hmx, ?_, ?_⟩
        · rw [hsplit]; rfl
        · simp [findDominant, hq, hfind]
        · intro q hq2
          rcases List.mem_cons.mp hq2 with h2 | h2
          · subst h2; exact hq
          · exact hpre q h2

/-! ### Date validation and the run entry point (`src/config.py`,
`src/main.py`)

`validate_date_format` models `datetime.strptime(date_str, a
year-month-day format)` with the exact field shapes of the CPython
`_strptime` regexes: the year is exactly four digits, the month one or
two digits with value 1..12, and the day one or two digits or a space
followed by a nonzero digit; the parsed date must then be constructible
(day within the month, year at least 1).  None of the field tokens can
contain a dash and the two separators are literal dashes, so matching
the whole string is equivalent to splitting it at dashes into exactly
three such fields.  Failure models the `ValueError` the source raises.
Timestamps are seconds since a fixed epoch, via the standard
days-from-civil-date formula. -/

/-- Length of a month, with the Gregorian leap rule. -/
def daysInMonth (y m : Nat) : Nat :=
  if m = 2 then
    (if (y % 4 = 0 ∧ y % 100 ≠ 0) ∨ y % 400 = 0 then 29 else 28)
  else if m = 4 ∨ m = 6 ∨ m = 9 ∨ m = 11 then 30 else 31

/-- Decimal value of a digit string. -/
def natOfDigits (s : Str) : Nat :=
  s.foldl (fun acc c => acc * 10 + (c.toNat - 48)) 0

/-- ASCII digit test. -/
def isDigitChar (c : Char) : Bool := decide (48 ≤ c.toNat ∧ c.toNat ≤ 57)

/-- Split a string at dash characters. -/
def splitDash : Str → List Str
  | [] => [[]]
  | c :: rest =>
    if c = '-' then [] :: splitDash rest
    else
      match splitDash rest with
      | [] => [[c]]
      | p :: ps => (c :: p) :: ps

/-- Value of the day field: one or two digits (the `3[01]`, `[12]`-digit,
`0`-digit and single-digit alternatives of the `%d` regex, whose excluded
values 0 and 32..99 are rejected by the day-of-month check below exactly
as the regex rejects them), or a space followed by a nonzero digit (its
space-padded alternative). -/
def dayFieldVal (ds : Str) : Option Nat :=
  if ds.all isDigitChar ∧ 1 ≤ ds.length ∧ ds.length ≤ 2 then
    some (natOfDigits ds)
  else
    match ds with
    | [c₁, c₂] =>
      if c₁.toNat = 32 ∧ 49 ≤ c₂.toNat ∧ c₂.toNat ≤ 57 then
        some (c₂.toNat - 48)
      else none
    | _ => none

/-- Model of `config.validate_date_format`: parse `date_str` as
year-month-day or fail (the `ValueError` of `datetime.strptime`).  The
year field is exactly four digits, the month field one or two digits
with value 1..12, the day field as in `dayFieldVal`; the resulting date
must be constructible. -/
def validate_date_format (date_str : Str) : Option (Nat × Nat × Nat) :=
  match splitDash date_str with
  | [ys, ms, ds] =>
    if ys.all isDigitChar ∧ ys.length = 4 ∧
        ms.all isDigitChar ∧ 1 ≤ ms.length ∧ ms.length ≤ 2 then
      match dayFieldVal ds with
      | some d =>
        let y := natOfDigits ys
        let m := natOfDigits ms
        if 1 ≤ y ∧ 1 ≤ m ∧ m ≤ 12 ∧ 1 ≤ d ∧ d ≤ daysInMonth y m then
          some (y, m, d)
        else none
      | none => none
    else none
  | _ => none

/-- Day number of a civil date (standard days-from-civil formula, valid
for the years this tool handles). -/
def daysFromCivil (y m d : Nat) : Nat :=
  let yAdj := if m ≤ 2 then y - 1 else y
  let era := yAdj / 400
  let yoe := yAdj % 400
  let mp := (m + 9) % 12
  let doy := (153 * mp + 2) / 5 + (d - 1)
  let doe := yoe * 365 + yoe / 4 - yoe / 100 + doy
  era * 146097 + doe

/-- Timestamp (seconds) of midnight on a civil date, the model of
`datetime(y, m, d)`. -/
def tsOfDate (ymd : Nat × Nat × Nat) : Nat :=
  daysFromCivil ymd.1 ymd.2.1 ymd.2.2 * 86400

/-- The hard-coded default project start date `datetime(2025, 2, 1)`. -/
def defaultStartDate : Nat := tsOfDate (2025, 2, 1)

/-- Outcome of a run of `main`: either the configuration error taken on an
invalid target date (before any repository is touched), or completion with
the per-group datasets the CSV rows are generated from. -/
inductive MainResult where
  | configError : MainResult
  | completed : List Dataset → MainResult
deriving DecidableEq

/-- Model of the analysis core of `report_generator.write_volumes_to_csv`:
each discovered group repository is aggregated with the shared window and
configuration.  (Folder discovery and CSV mechanics are I/O wrappers; the
repositories found are supplied as `repos`.) -/
def write_volumes_to_csv (repos : List (Str × List Branch))
    (start_date end_date : Nat) (excluded : List Str) (tbl : AliasTable) :
    List Dataset :=
  repos.map fun gb =>
    collect_changes_by_group start_date end_date excluded gb.1 tbl gb.2

/-- Model of `main.main`: resolve the configured start date (falling back
to the default when absent or unparseable), validate the target date
(aborting with a configuration error when it is malformed), then run the
analysis over the repositories. -/
def main_run (cfg_start : Option Str) (target_str : Str)
    (analysis_days : Nat) (repos : List (Str × List Branch))
    (excluded : List Str) (tbl : AliasTable) : MainResult :=
  let fixed_project_start_date :=
    match cfg_start with
    | some s =>
      match validate_date_format s with
      | some ymd => tsOfDate ymd
      | none => defaultStartDate
    | none => defaultStartDate
  match validate_date_format target_str with
  | none => MainResult.configError
  | some t =>
    MainResult.completed
      (write_volumes_to_csv repos fixed_project_start_date
        (tsOfDate t + analysis_days * 86400) excluded tbl)

/-- Total commit volume carried by a run outcome. -/
def totalOfResult : MainResult → Nat
  | MainResult.configError => 0
  | MainResult.completed dss => (dss.map totalCommits).sum

/-! ### Helper lemmas for the claim theorems -/

theorem memb_of_mem (x : Str) (l : List Str) (h : x ∈ l) : memb x l = true := by
  induction l with
  | nil => cases h
  | cons y ys ih =>
    by_cases hy : y = x
    · simp [memb, hy]
    · rcases List.mem_cons.mp h with h1 | h1
      · exact absurd h1.symm hy
      · simp [memb, hy, ih h1]

theorem mem_finalize (ds : Dataset) (grp : Str)
    (entry : List (Str × AuthorData)) (h : (grp, entry) ∈ finalize ds) :
    ∃ entry₀, (grp, entry₀) ∈ ds ∧
      entry = entry₀.map fun md => (md.1, finalize_data md.2) := by
  unfold finalize at h
  obtain ⟨ge, hge, heq⟩ := List.mem_map.mp h
  obtain ⟨h1, h2⟩ := Prod.mk.injEq _ _ _ _ ▸ heq
  refine ⟨ge.2, ?_, h2.symm⟩
  have : ge = (grp, ge.2) := by
    rw [← h1]
  rwa [this] at hge

theorem process_commit_skip_excluded (start_date end_date : Nat)
    (excluded : List Str) (g₀ : Str) (tbl : AliasTable) (ds : Dataset)
    (c : Commit) (hx : isExcluded c.author_name excluded = true) :
    process_commit start_date end_date excluded g₀ tbl ds c = ds := by
  by_cases hw : start_date ≤ c.committed_date ∧ c.committed_date < end_date
  · simp only [process_commit, if_pos hw, if_pos hx]
  · simp only [process_commit, if_neg hw]

theorem process_branch_ignore_commit (start_date end_date : Nat)
    (excluded : List Str) (g₀ : Str) (tbl : AliasTable) (c : Commit)
    (hskip : ∀ ds, process_commit start_date end_date excluded g₀ tbl ds c = ds) :
    ∀ (l1 l2 : List TraversalItem) (ds : Dataset),
      process_branch start_date end_date excluded g₀ tbl ds
          (l1 ++ TraversalItem.commit c :: l2) =
        process_branch start_date end_date excluded g₀ tbl ds (l1 ++ l2) := by
  intro l1
  induction l1 with
  | nil =>
    intro l2 ds
    simp only [List.nil_append, process_branch, hskip]
  | cons item rest ih =>
    intro l2 ds
    cases item with
    | commit c₁ =>
      simp only [List.cons_append, process_branch]
      exact ih l2 _
    | failure =>
      simp only [List.cons_append, process_branch]

theorem process_branch_cut_at_failure (start_date end_date : Nat)
    (excluded : List Str) (g₀ : Str) (tbl : AliasTable) :
    ∀ (l1 l2 : List TraversalItem) (ds : Dataset),
      TraversalItem.failure ∉ l1 →
      process_branch start_date end_date excluded g₀ tbl ds
          (l1 ++ TraversalItem.failure :: l2) =
        process_branch start_date end_date excluded g₀ tbl ds l1 := by
  intro l1
  induction l1 with
  | nil => intro l2 ds _; rfl
  | cons item rest ih =>
    intro l2 ds hl1
    cases item with
    | commit c₁ =>
      simp only [List.cons_append, process_branch]
      exact ih l2 _ (fun hmem => hl1 (List.mem_cons_of_mem _ hmem))
    | failure =>
      exact absurd (List.mem_cons_self _ _) hl1

theorem collect_branch_congr (start_date end_date : Nat)
    (excluded : List Str) (g₀ : Str) (tbl : AliasTable)
    (b₁ b₂ : Branch) (B1 B2 : List Branch)
    (hb : ∀ ds, process_branch start_date end_date excluded g₀ tbl ds b₁ =
      process_branch start_date end_date excluded g₀ tbl ds b₂) :
    collect_changes_by_group start_date end_date excluded g₀ tbl
        (B1 ++ b₁ :: B2) =
      collect_changes_by_group start_date end_date excluded g₀ tbl
        (B1 ++ b₂ :: B2) := by
  unfold collect_changes_by_group
  rw [List.foldl_append, List.foldl_append, List.foldl_cons, List.foldl_cons, hb]

theorem untrimmed_matches_nothing (e a : Str) (he : stripStr e ≠ e) :
    lowerStr (stripStr a) ≠ lowerStr e := by
  intro heq
  have h1 : stripStr (lowerStr (stripStr a)) = stripStr (lowerStr e) := by
    rw [heq]
  rw [stripStr_lowerStr, stripStr_idem] at h1
  rw [heq] at h1
  have hlen : (lowerStr e).length = (stripStr (lowerStr e)).length := by
    rw [← h1]
  rw [stripStr_lowerStr, length_lowerStr, length_lowerStr] at hlen
  exact he (stripStr_eq_self_of_length e hlen.symm)

theorem map_alias_eq (n g : Str) (tbl : AliasTable) :
    map_alias_to_name n g tbl =
      match alookup (normalizeName n) ((alookup g tbl).getD []) with
      | some v => v
      | none =>
        match alookup (normalizeName n) ((alookup globalKey tbl).getD []) with
        | some v => v
        | none => normalizeName n := by
  unfold map_alias_to_name normalizeName
  cases hg : alookup g tbl with
  | none => simp [alookup]
  | some grp => cases hv : alookup (lowerStr (stripStr n)) grp <;> simp [hv]

/-! ### Claim theorems -/

/-- C1: after every run of `collect_changes_by_group`, every
`(group, author)` entry of the returned dataset has its total insertions
equal to the sum of the per-day insertion counts, its total deletions
equal to the sum of the per-day deletion counts, and `active_days` equal
to the number of days whose daily commit count is at least 1. -/
theorem C1_derived_value_invariant (start_date end_date : Nat)
    (excluded : List Str) (group_label : Str) (tbl : AliasTable)
    (branches : List Branch) (grp : Str) (entry : List (Str × AuthorData))
    (m : Str) (d : AuthorData)
    (h1 : (grp, entry) ∈ collect_changes_by_group start_date end_date
      excluded group_label tbl branches)
    (h2 : (m, d) ∈ entry) :
    d.insertions = csum d.daily_insertions ∧
    d.deletions = csum d.daily_deletions ∧
    d.active_days = numActiveDays d.daily_commits := by
  unfold collect_changes_by_group at h1
  obtain ⟨entry₀, hmem₀, hentry⟩ := mem_finalize _ _ _ h1
  subst hentry
  obtain ⟨md₀, hmd₀, heq⟩ := List.mem_map.mp h2
  obtain ⟨hm, hd⟩ := Prod.mk.injEq _ _ _ _ ▸ heq
  have hwf : CounterWF md₀.2.daily_commits :=
    datasetWF_fold start_date end_date excluded group_label tbl branches []
      datasetWF_nil (grp, entry₀) hmem₀ md₀ hmd₀
  subst hd
  exact ⟨rfl, rfl, active_length_eq _ hwf⟩

def wGroup : Str := "g1".toList

def wAliceRaw : Str := " Alice ".toList

def wAliceNorm : Str := "alice".toList

def wCommitC1 : Commit :=
  { author_name := wAliceRaw, committed_date := 500,
    insertions := 10, deletions := 2 }

def wStatsC1 : AuthorData :=
  { insertions := 10, deletions := 2, daily_commits := [(0, 1)],
    daily_insertions := [(0, 10)], daily_deletions := [(0, 2)],
    active_days := 1 }

def wEntryC1 : List (Str × AuthorData) := [(wAliceNorm, wStatsC1)]

/-- C1 witness: a concrete one-commit run satisfying the invariant. -/
theorem C1_witness :
    wStatsC1.insertions = csum wStatsC1.daily_insertions ∧
    wStatsC1.deletions = csum wStatsC1.daily_deletions ∧
    wStatsC1.active_days = numActiveDays wStatsC1.daily_commits :=
  C1_derived_value_invariant 0 1000 [] wGroup [] [[TraversalItem.commit wCommitC1]]
    wGroup wEntryC1 wAliceNorm wStatsC1 (by decide) (by decide)

/-- C2: a commit that reaches the date filter is counted exactly when
`start_date ≤ commit_date < end_date` — the total commit count of the
dataset grows by 1 in that case and is unchanged otherwise, so a commit
dated exactly `start_date` is included and one dated exactly `end_date`
is excluded (the claim quantifies over commits that reach this filter, so
the author is taken to not be excluded). -/
theorem C2_half_open_window (start_date end_date : Nat) (excluded : List Str)
    (group_label : Str) (tbl : AliasTable) (ds : Dataset) (c : Commit)
    (hex : isExcluded c.author_name excluded = false) :
    totalCommits (process_commit start_date end_date excluded group_label tbl ds c) =
      totalCommits ds +
        if start_date ≤ c.committed_date ∧ c.committed_date < end_date
        then 1 else 0 :=
  totalCommits_process_commit start_date end_date excluded group_label tbl ds c hex

def wCommitStart : Commit :=
  { author_name := wAliceRaw, committed_date := 100,
    insertions := 1, deletions := 1 }

def wCommitEnd : Commit :=
  { author_name := wAliceRaw, committed_date := 200,
    insertions := 1, deletions := 1 }

/-- C2 witness: on the window `[100, 200)` a commit dated 100 is counted
and a commit dated 200 is not. -/
theorem C2_witness :
    isExcluded wCommitStart.author_name [] = false ∧
    totalCommits (process_commit 100 200 [] wGroup [] [] wCommitStart) =
      totalCommits ([] : Dataset) +
        (if 100 ≤ wCommitStart.committed_date ∧
            wCommitStart.committed_date < 200 then 1 else 0) ∧
    totalCommits (process_commit 100 200 [] wGroup [] [] wCommitEnd) =
      totalCommits ([] : Dataset) +
        (if 100 ≤ wCommitEnd.committed_date ∧
            wCommitEnd.committed_date < 200 then 1 else 0) :=
  ⟨by decide,
    C2_half_open_window 100 200 [] wGroup [] [] wCommitStart (by decide),
    C2_half_open_window 100 200 [] wGroup [] [] wCommitEnd (by decide)⟩

/-- C3: `calculate_balance_indicators` maps a group with zero total
commits to ratio 0 with no dominant member; a group with positive total
commits gets as dominant the first member (in iteration order) holding
the maximal commit count, with ratio that member's commits over the group
total, a value between 0 and 1. -/
theorem C3_balance_spec (data : List (Str × List (Str × MemberStats)))
    (g : Str) (members : List (Str × MemberStats))
    (hmem : (g, members) ∈ data) :
    (g, balanceOf members) ∈ calculate_balance_indicators data ∧
    (groupTotal members = 0 →
      balanceOf members = { dominant_ratio := 0, dominant_member := none }) ∧
    (0 < groupTotal members →
      ∃ m s pre post,
        members = pre ++ (m, s) :: post ∧
        balanceOf members =
          { dominant_ratio := (s.total_commits : ℚ) / (groupTotal members : ℚ),
            dominant_member := some m } ∧
        (∀ q ∈ members, q.2.total_commits ≤ s.total_commits) ∧
        (∀ q ∈ pre, q.2.total_commits < s.total_commits) ∧
        0 ≤ (s.total_commits : ℚ) / (groupTotal members : ℚ) ∧
        (s.total_commits : ℚ) / (groupTotal members : ℚ) ≤ 1) := by
  refine ⟨?_, ?_, ?_⟩
  · exact List.mem_map_of_mem (fun p => (p.1, balanceOf p.2)) hmem
  · intro h0
    unfold balanceOf
    rw [if_neg (by omega)]
  · intro hpos
    set mx := pyMax (members.map fun p => p.2.total_commits) with hmx
    obtain ⟨x, hxmem, hx⟩ := exists_pos_of_sum_pos _ hpos
    have hmxpos : 0 < mx := lt_of_lt_of_le hx (le_pyMax _ x hxmem)
    have hmxmem : mx ∈ members.map fun p => p.2.total_commits :=
      pyMax_mem _ hmxpos
    obtain ⟨p, hp, hpmx⟩ := List.mem_map.mp hmxmem
    obtain ⟨m, s, pre, post, hsplit, hsmx, hfind, hpre⟩ :=
      findDominant_spec members mx ⟨p, hp, hpmx⟩
    have hbal : balanceOf members =
        { dominant_ratio := (mx : ℚ) / (groupTotal members : ℚ),
          dominant_member := some m } := by
      unfold balanceOf
      rw [if_pos hpos, ← hmx, hfind]
    have hle : ∀ q ∈ members, q.2.total_commits ≤ s.total_commits := by
      intro q hq
      rw [hsmx]
      exact le_pyMax _ _ (List.mem_map_of_mem _ hq)
    have hsmem : (m, s) ∈ members := by
      rw [hsplit]
      exact List.mem_append_right _ (List.mem_cons_self _ _)
    have hstot : s.total_commits ≤ groupTotal members :=
      List.single_le_sum (fun x _ => Nat.zero_le x) _
        (List.mem_map_of_mem _ hsmem)
    have htotpos : (0 : ℚ) < (groupTotal members : ℚ) := by
      exact_mod_cast hpos
    have hub : (s.total_commits : ℚ) / (groupTotal members : ℚ) ≤ 1 := by
      rw [div_le_one htotpos]
      exact_mod_cast hstot
    have hlb : 0 ≤ (s.total_commits : ℚ) / (groupTotal members : ℚ) :=
      div_nonneg (Nat.cast_nonneg _) (le_of_lt htotpos)
    refine ⟨m, s, pre, post, hsplit, ?_, hle, ?_, hlb, hub⟩
    · rw [hbal, hsmx]
    · intro q hq
      have hqm : q ∈ members := by
        rw [hsplit]
        exact List.mem_append_left _ hq
      have hq1 : q.2.total_commits ≤ mx :=
        le_pyMax _ _ (List.mem_map_of_mem _ hqm)
      have hq2 : q.2.total_commits ≠ mx := hpre q hq
      rw [hsmx]
      omega

def wGA : Str := "A".toList

def wGB : Str := "B".toList

def wM1 : Str := "m1".toList

def wM2 : Str := "m2".toList

def wM3 : Str := "m3".toList

def wS5 : MemberStats :=
  { insertions := 0, deletions := 0, total_commits := 5, active_days := 0 }

def wS15 : MemberStats :=
  { insertions := 0, deletions := 0, total_commits := 15, active_days := 0 }

def wS0 : MemberStats :=
  { insertions := 0, deletions := 0, total_commits := 0, active_days := 0 }

def wMembersA : List (Str × MemberStats) := [(wM1, wS5), (wM2, wS15)]

def wBalData : List (Str × List (Str × MemberStats)) :=
  [(wGA, wMembersA), (wGB, [(wM3, wS0)])]

/-- C3 witness: the spec scenario with commit totals 5 and 15. -/
theorem C3_witness :
    (wGA, balanceOf wMembersA) ∈ calculate_balance_indicators wBalData ∧
    (groupTotal wMembersA = 0 →
      balanceOf wMembersA = { dominant_ratio := 0, dominant_member := none }) ∧
    (0 < groupTotal wMembersA →
      ∃ m s pre post,
        wMembersA = pre ++ (m, s) :: post ∧
        balanceOf wMembersA =
          { dominant_ratio := (s.total_commits : ℚ) / (groupTotal wMembersA : ℚ),
            dominant_member := some m } ∧
        (∀ q ∈ wMembersA, q.2.total_commits ≤ s.total_commits) ∧
        (∀ q ∈ pre, q.2.total_commits < s.total_commits) ∧
        0 ≤ (s.total_commits : ℚ) / (groupTotal wMembersA : ℚ) ∧
        (s.total_commits : ℚ) / (groupTotal wMembersA : ℚ) ≤ 1) :=
  C3_balance_spec wBalData wGA wMembersA (by decide)

/-- C4: `map_alias_to_name` returns the group-specific entry for the
normalized name when present (whatever the global table holds), else the
global entry when present, else the normalized raw name itself; being a
total function it never fails. -/
theorem C4_lookup_order (n g : Str) (tbl : AliasTable) :
    (∀ v, alookup (normalizeName n) ((alookup g tbl).getD []) = some v →
      map_alias_to_name n g tbl = v) ∧
    (alookup (normalizeName n) ((alookup g tbl).getD []) = none →
      ∀ v, alookup (normalizeName n) ((alookup globalKey tbl).getD []) = some v →
        map_alias_to_name n g tbl = v) ∧
    (alookup (normalizeName n) ((alookup g tbl).getD []) = none →
      alookup (normalizeName n) ((alookup globalKey tbl).getD []) = none →
      map_alias_to_name n g tbl = normalizeName n) := by
  refine ⟨?_, ?_, ?_⟩
  · intro v hv
    rw [map_alias_eq, hv]
  · intro h0 v hv
    rw [map_alias_eq, h0, hv]
  · intro h0 h1
    rw [map_alias_eq, h0, h1]

def wG1 : Str := "team1".toList

def wAlicia : Str := "alicia grand".toList

def wAliceGlobal : Str := "alice global".toList

def wTbl : AliasTable :=
  [(wG1, [(wAliceNorm, wAlicia)]), (globalKey, [(wAliceNorm, wAliceGlobal)])]

/-- C4 witness: the group-specific entry wins although the global table
holds a different entry for the same normalized key. -/
theorem C4_witness : map_alias_to_name wAliceRaw wG1 wTbl = wAlicia :=
  (C4_lookup_order wAliceRaw wG1 wTbl).1 wAlicia (by decide)

/-- C5: resolving a raw name and resolving its trimmed-and-lowered form
give the same unified name (idempotence of normalization). -/
theorem C5_normalization_idempotent (n g : Str) (tbl : AliasTable) :
    map_alias_to_name (stripStr (lowerStr n)) g tbl =
      map_alias_to_name n g tbl :=
  map_alias_eq_of_normalizeName _ _ _ _ (normalizeName_stripStr_lowerStr n)

def wBobPadded : Str := " bob ".toList

def wCommitC6 : Commit :=
  { author_name := wBobPadded, committed_date := 500,
    insertions := 3, deletions := 1 }

/-- C6 counterexample: the excluded list holds the entry `" bob "` and a
commit's raw author name is that very string, so the raw author name
matches the entry case-insensitively; yet the commit is counted — it
contributes one commit to the dataset returned by
`collect_changes_by_group`, not zero, because the entry is lowered but
never trimmed while the author name is trimmed. -/
theorem C6_counterexample :
    lowerStr wCommitC6.author_name = lowerStr wBobPadded ∧
    totalCommits (collect_changes_by_group 0 1000 [wBobPadded] wGroup []
      [[TraversalItem.commit wCommitC6]]) = 1 :=
  ⟨rfl, by decide⟩

/-- C6 (amended): a commit whose trimmed-and-lowercased raw author name
equals the lowercased form of some excluded entry contributes nothing to
the dataset returned by `collect_changes_by_group`: removing the commit
from its branch leaves the returned dataset unchanged. -/
theorem C6_amended_exclusion (start_date end_date : Nat)
    (excluded : List Str) (group_label : Str) (tbl : AliasTable) (e : Str)
    (c : Commit) (B1 B2 : List Branch) (l1 l2 : List TraversalItem)
    (hmem : e ∈ excluded)
    (hmatch : lowerStr (stripStr c.author_name) = lowerStr e) :
    collect_changes_by_group start_date end_date excluded group_label tbl
        (B1 ++ (l1 ++ TraversalItem.commit c :: l2) :: B2) =
      collect_changes_by_group start_date end_date excluded group_label tbl
        (B1 ++ (l1 ++ l2) :: B2) := by
  have hx : isExcluded c.author_name excluded = true := by
    unfold isExcluded
    apply memb_of_mem
    rw [hmatch]
    exact List.mem_map_of_mem _ hmem
  have hskip : ∀ ds,
      process_commit start_date end_date excluded group_label tbl ds c = ds :=
    fun ds => process_commit_skip_excluded _ _ _ _ _ _ _ hx
  exact collect_branch_congr start_date end_date excluded group_label tbl _ _
    B1 B2 (fun ds =>
      process_branch_ignore_commit start_date end_date excluded group_label
        tbl c hskip l1 l2 ds)

def wBobUpper : Str := "BOB".toList

def wBobSpaced : Str := " Bob ".toList

def wCommitC6b : Commit :=
  { author_name := wBobSpaced, committed_date := 500,
    insertions := 2, deletions := 2 }

/-- C6 witness: a commit by `" Bob "` with trimmed entry `"BOB"` excluded
is dropped from the dataset. -/
theorem C6_witness :
    collect_changes_by_group 0 1000 [wBobUpper] wGroup []
        [[TraversalItem.commit wCommitC6b]] =
      collect_changes_by_group 0 1000 [wBobUpper] wGroup [] [[]] :=
  C6_amended_exclusion 0 1000 [wBobUpper] wGroup [] wBobUpper wCommitC6b
    [] [] [] [] (by decide) (by decide)

/-- C7 (amended): a malformed target date string aborts the run with a
configuration error before any repository is touched — the outcome is the
same whatever repositories are supplied — and no dataset is emitted.  A
malformed configured start date, by contrast, does not abort the run (see
the counterexample): it is logged and the default start date is used. -/
theorem C7_amended_config_abort (cfg_start : Option Str) (target_str : Str)
    (analysis_days : Nat) (repos : List (Str × List Branch))
    (excluded : List Str) (tbl : AliasTable)
    (h : validate_date_format target_str = none) :
    main_run cfg_start target_str analysis_days repos excluded tbl =
      MainResult.configError ∧
    totalOfResult
      (main_run cfg_start target_str analysis_days repos excluded tbl) = 0 := by
  have h1 : main_run cfg_start target_str analysis_days repos excluded tbl =
      MainResult.configError := by
    simp only [main_run, h]
  exact ⟨h1, by rw [h1]; rfl⟩

def wBadDate : Str := "2025-13-05".toList

def wTargetDate : Str := "2025-03-01".toList

def wCommitC7 : Commit :=
  { author_name := wAliceRaw, committed_date := tsOfDate (2025, 2, 10),
    insertions := 4, deletions := 1 }

def wRepos : List (Str × List Branch) :=
  [(wGroup, [[TraversalItem.commit wCommitC7]])]

/-- C7 counterexample: with the malformed configured start date
"2025-13-05" (month 13) the run does not abort: the start date silently
falls back to the default and the run completes, emitting a dataset that
counts the repository's commit — the claim instead requires a fatal
configuration error for a malformed start date. -/
theorem C7_counterexample :
    validate_date_format wBadDate = none ∧
    main_run (some wBadDate) wTargetDate 10 wRepos [] [] ≠
      MainResult.configError ∧
    totalOfResult (main_run (some wBadDate) wTargetDate 10 wRepos [] []) = 1 :=
  ⟨by decide, by decide, by decide⟩

def wGarbage : Str := "not-a-date".toList

/-- C7 witness: a malformed target date aborts a run over a non-empty
repository list with no dataset emitted. -/
theorem C7_witness :
    main_run none wGarbage 10 wRepos [] [] = MainResult.configError ∧
    totalOfResult (main_run none wGarbage 10 wRepos [] []) = 0 :=
  C7_amended_config_abort none wGarbage 10 wRepos [] [] (by decide)

/-- C8 (amended): a failure during one branch's traversal skips only the
rest of that branch — the commits of that branch processed before the
failure remain counted — while processing continues with the remaining
branches, whose accumulated counts are unchanged; the repository's
aggregation is never aborted. -/
theorem C8_amended_branch_failure (start_date end_date : Nat)
    (excluded : List Str) (group_label : Str) (tbl : AliasTable)
    (B1 B2 : List Branch) (l1 l2 : List TraversalItem)
    (hl1 : TraversalItem.failure ∉ l1) :
    collect_changes_by_group start_date end_date excluded group_label tbl
        (B1 ++ (l1 ++ TraversalItem.failure :: l2) :: B2) =
      collect_changes_by_group start_date end_date excluded group_label tbl
        (B1 ++ l1 :: B2) :=
  collect_branch_congr start_date end_date excluded group_label tbl _ _ B1 B2
    (fun ds => process_branch_cut_at_failure start_date end_date excluded
      group_label tbl l1 l2 ds hl1)

def wCommitC8 : Commit :=
  { author_name := wAliceRaw, committed_date := 500,
    insertions := 7, deletions := 3 }

/-- C8 counterexample: a branch whose traversal fails after yielding one
in-window commit still contributes that commit to the dataset (total 1,
not the 0 the claim's "contribute nothing" wording requires). -/
theorem C8_counterexample :
    totalCommits (collect_changes_by_group 0 1000 [] wGroup []
      [[TraversalItem.commit wCommitC8, TraversalItem.failure]]) = 1 := by
  decide

def wCommitC8b : Commit :=
  { author_name := wAliceRaw, committed_date := 600,
    insertions := 1, deletions := 1 }

/-- C8 witness: the commits after the failure point are dropped, the one
before it is kept. -/
theorem C8_witness :
    collect_changes_by_group 0 1000 [] wGroup []
        [[TraversalItem.commit wCommitC8, TraversalItem.failure,
          TraversalItem.commit wCommitC8b]] =
      collect_changes_by_group 0 1000 [] wGroup []
        [[TraversalItem.commit wCommitC8]] :=
  C8_amended_branch_failure 0 1000 [] wGroup [] [] []
    [TraversalItem.commit wCommitC8] [TraversalItem.commit wCommitC8b]
    (by decide)

/-- C9: the accumulation step of `collect_changes_by_group` is
order-independent — processing any permutation of a commit list yields the
same per-day and per-total counts for every group, author and day,
because accumulation buckets by day with commutative additions. -/
theorem C9_order_independence (start_date end_date : Nat)
    (excluded : List Str) (g₀ : Str) (tbl : AliasTable) (ds : Dataset)
    (g a : Str) (day : Nat) (l₁ l₂ : List Commit) (h : l₁.Perm l₂) :
    dayCommits (aggregateCommits start_date end_date excluded g₀ tbl ds l₁) g a day =
      dayCommits (aggregateCommits start_date end_date excluded g₀ tbl ds l₂) g a day ∧
    dayInsertions (aggregateCommits start_date end_date excluded g₀ tbl ds l₁) g a day =
      dayInsertions (aggregateCommits start_date end_date excluded g₀ tbl ds l₂) g a day ∧
    dayDeletions (aggregateCommits start_date end_date excluded g₀ tbl ds l₁) g a day =
      dayDeletions (aggregateCommits start_date end_date excluded g₀ tbl ds l₂) g a day ∧
    totCommitsAt (aggregateCommits start_date end_date excluded g₀ tbl ds l₁) g a =
      totCommitsAt (aggregateCommits start_date end_date excluded g₀ tbl ds l₂) g a ∧
    totInsertionsAt (aggregateCommits start_date end_date excluded g₀ tbl ds l₁) g a =
      totInsertionsAt (aggregateCommits start_date end_date excluded g₀ tbl ds l₂) g a ∧
    totDeletionsAt (aggregateCommits start_date end_date excluded g₀ tbl ds l₁) g a =
      totDeletionsAt (aggregateCommits start_date end_date excluded g₀ tbl ds l₂) g a := by
  have key : ∀ (F : Dataset → Nat) (w : Commit → Nat),
      (∀ ds c,
        F (process_commit start_date end_date excluded g₀ tbl ds c) = F ds + w c) →
      F (aggregateCommits start_date end_date excluded g₀ tbl ds l₁) =
        F (aggregateCommits start_date end_date excluded g₀ tbl ds l₂) := by
    intro F w hF
    rw [aggregate_measure start_date end_date excluded g₀ tbl F w hF l₁ ds,
      aggregate_measure start_date end_date excluded g₀ tbl F w hF l₂ ds,
      (h.map w).sum_eq]
  exact ⟨key (fun ds => dayCommits ds g a day) _
      (fun ds c => dayCommits_step start_date end_date excluded g₀ tbl ds c g a day),
    key (fun ds => dayInsertions ds g a day) _
      (fun ds c => dayInsertions_step start_date end_date excluded g₀ tbl ds c g a day),
    key (fun ds => dayDeletions ds g a day) _
      (fun ds c => dayDeletions_step start_date end_date excluded g₀ tbl ds c g a day),
    key (fun ds => totCommitsAt ds g a) _
      (fun ds c => totCommitsAt_step start_date end_date excluded g₀ tbl ds c g a),
    key (fun ds => totInsertionsAt ds g a) _
      (fun ds c => totInsertionsAt_step start_date end_date excluded g₀ tbl ds c g a),
    key (fun ds => totDeletionsAt ds g a) _
      (fun ds c => totDeletionsAt_step start_date end_date excluded g₀ tbl ds c g a)⟩

def wBobRaw : Str := "Bob".toList

def wCommitX : Commit :=
  { author_name := wAliceRaw, committed_date := 500,
    insertions := 2, deletions := 1 }

def wCommitY : Commit :=
  { author_name := wBobRaw, committed_date := 600,
    insertions := 5, deletions := 0 }

/-- C9 witness: swapping two concrete commits leaves all counts equal. -/
theorem C9_witness :
    dayCommits (aggregateCommits 0 1000 [] wGroup [] [] [wCommitX, wCommitY]) wGroup wAliceNorm 0 =
      dayCommits (aggregateCommits 0 1000 [] wGroup [] [] [wCommitY, wCommitX]) wGroup wAliceNorm 0 ∧
    dayInsertions (aggregateCommits 0 1000 [] wGroup [] [] [wCommitX, wCommitY]) wGroup wAliceNorm 0 =
      dayInsertions (aggregateCommits 0 1000 [] wGroup [] [] [wCommitY, wCommitX]) wGroup wAliceNorm 0 ∧
    dayDeletions (aggregateCommits 0 1000 [] wGroup [] [] [wCommitX, wCommitY]) wGroup wAliceNorm 0 =
      dayDeletions (aggregateCommits 0 1000 [] wGroup [] [] [wCommitY, wCommitX]) wGroup wAliceNorm 0 ∧
    totCommitsAt (aggregateCommits 0 1000 [] wGroup [] [] [wCommitX, wCommitY]) wGroup wAliceNorm =
      totCommitsAt (aggregateCommits 0 1000 [] wGroup [] [] [wCommitY, wCommitX]) wGroup wAliceNorm ∧
    totInsertionsAt (aggregateCommits 0 1000 [] wGroup [] [] [wCommitX, wCommitY]) wGroup wAliceNorm =
      totInsertionsAt (aggregateCommits 0 1000 [] wGroup [] [] [wCommitY, wCommitX]) wGroup wAliceNorm ∧
    totDeletionsAt (aggregateCommits 0 1000 [] wGroup [] [] [wCommitX, wCommitY]) wGroup wAliceNorm =
      totDeletionsAt (aggregateCommits 0 1000 [] wGroup [] [] [wCommitY, wCommitX]) wGroup wAliceNorm :=
  C9_order_independence 0 1000 [] wGroup [] [] wGroup wAliceNorm 0
    [wCommitX, wCommitY] [wCommitY, wCommitX] (by decide)

/-- C10: exclusion matching lowercases both the author name and the
excluded entries but trims only the author name; hence an excluded entry
carrying surrounding whitespace matches no commit at all, and a
qualifying commit by the author it names is still counted. -/
theorem C10_untrimmed_entry_ineffective (start_date end_date : Nat)
    (e : Str) (c : Commit) (group_label : Str) (tbl : AliasTable)
    (ds : Dataset) (he : stripStr e ≠ e)
    (hw : start_date ≤ c.committed_date ∧ c.committed_date < end_date) :
    lowerStr (stripStr c.author_name) ≠ lowerStr e ∧
    isExcluded c.author_name [e] = false ∧
    totalCommits (process_commit start_date end_date [e] group_label tbl ds c) =
      totalCommits ds + 1 := by
  have hne := untrimmed_matches_nothing e c.author_name he
  have hex : isExcluded c.author_name [e] = false := by
    unfold isExcluded
    simp only [List.map_cons, List.map_nil]
    have hm : memb (lowerStr (stripStr c.author_name)) [lowerStr e] =
        if lowerStr e = lowerStr (stripStr c.author_name) then true
        else memb (lowerStr (stripStr c.author_name)) [] := rfl
    rw [hm, if_neg (fun hh => hne hh.symm)]
    rfl
  refine ⟨hne, hex, ?_⟩
  rw [totalCommits_process_commit start_date end_date [e] group_label tbl ds c hex,
    if_pos hw]

def wBobLower : Str := "bob".toList

def wCommitC10 : Commit :=
  { author_name := wBobLower, committed_date := 500,
    insertions := 1, deletions := 0 }

/-- C10 witness: the padded entry `" bob "` matches nothing and a commit
by `"bob"` is counted despite the entry. -/
theorem C10_witness :
    lowerStr (stripStr wCommitC10.author_name) ≠ lowerStr wBobPadded ∧
    isExcluded wCommitC10.author_name [wBobPadded] = false ∧
    totalCommits (process_commit 0 1000 [wBobPadded] wGroup [] [] wCommitC10) =
      totalCommits ([] : Dataset) + 1 :=
  C10_untrimmed_entry_ineffective 0 1000 wBobPadded wCommitC10 wGroup [] []
    (by decide) (by decide)
